import Mathlib

/-!
Verification of the tokenizer library (src/index.ts).

The embedding models the text as a list of characters. A token matcher is
the tagged union of the three variants the source dispatches on at runtime:
a literal string, a regular expression, and a matcher function. A regular
expression value is represented by its exec behaviour on a given text: an
earliest-match function returning the match index and the matched text, as
`RegExp.prototype.exec` does; the concrete expressions used by the test
inputs are instantiated below as executable functions. A specification is
the ordered list of (type, matcher) entries, matching the iteration order
of `Object.entries` over the specification object.

The generator `token_iterator` is modelled two ways, both directly from the
source loop: `token_iterator` maps a fuel bound (counting outer loop
iterations) and a start cursor to the full list of yielded tokens together
with the final cursor value, returning `none` when the fuel is exhausted
before the loop exits; `iterator_next` models a single resumption of the
generator (one call of `.next()`): from a cursor it runs the loop up to the
next `yield` or to completion. `tokenize` drains `iterator_next` the way
`Array.from` drains the generator. The `TokenStream` wrapper is modelled
over the list of tokens its underlying generator yields.
-/

abbrev Str := List Char

inductive TokenMatcher where
  | literal : Str → TokenMatcher
  | pattern : (Str → Option (Nat × Str)) → TokenMatcher
  | fn : (Str → Option Str) → TokenMatcher

structure Token where
  type : String
  value : Str
  line : Nat
  column : Nat
deriving DecidableEq, Repr

abbrev Spec := List (String × TokenMatcher)

/-- `text.startsWith(pat)` on character lists. -/
def starts_with : Str → Str → Bool
  | _, [] => true
  | [], _ :: _ => false
  | c :: cs, p :: ps => (c == p) && starts_with cs ps

/-- `match_start_of_text` from the source: dispatch on the matcher variant.
A string matcher matches iff the text starts with it; a regex matcher runs
exec and accepts only a match whose index is 0; a function matcher is
called and its result returned verbatim. -/
def match_start_of_text (text : Str) (matcher : TokenMatcher) : Option Str :=
  match matcher with
  | TokenMatcher.literal s => if starts_with text s then some s else none
  | TokenMatcher.pattern exec =>
    match exec text with
    | some (idx, m) => if idx = 0 then some m else none
    | none => none
  | TokenMatcher.fn f => f text

/-- The loop body of `get_line_and_column`: walk the first `index`
positions of the text, bumping the line and resetting the column at each
newline. A position beyond the end of the text reads `undefined` in the
source, which is not a newline, so the column is bumped there too. -/
def glc_go : Str → Nat → Nat → Nat → Nat × Nat
  | _, 0, line, column => (line, column)
  | [], n + 1, line, column => glc_go [] n line (column + 1)
  | c :: cs, n + 1, line, column =>
    if c = '\n' then glc_go cs n (line + 1) 1 else glc_go cs n line (column + 1)

/-- `get_line_and_column` from the source. -/
def get_line_and_column (text : Str) (index : Nat) : Nat × Nat :=
  glc_go text index 1 1

/-- The inner `for` loop of `token_iterator`: the first specification entry
whose matcher matches the slice, with the matched text. -/
def find_first_match (spec : Spec) (slice : Str) : Option (String × Str) :=
  match spec with
  | [] => none
  | (ty, matcher) :: rest =>
    match match_start_of_text slice matcher with
    | some v => some (ty, v)
    | none => find_first_match rest slice

/-- The generator `token_iterator`, one fuel unit per outer loop iteration:
the list of yielded tokens and the final cursor value, or `none` when the
fuel runs out before the loop exits. On a match at cursor `i` the source
does `i += match.length - 1` followed by the loop increment `i++`, a net
advance by the match length (zero included); otherwise the loop increment
advances by one. -/
def token_iterator (text : Str) (spec : Spec) : Nat → Nat → Option (List Token × Nat)
  | 0, _ => none
  | fuel + 1, i =>
    if i < text.length then
      match find_first_match spec (text.drop i) with
      | some (ty, m) =>
        match token_iterator text spec fuel (i + m.length) with
        | some (toks, fin) =>
          some (⟨ty, m, (get_line_and_column text i).1, (get_line_and_column text i).2⟩ :: toks, fin)
        | none => none
      | none => token_iterator text spec fuel (i + 1)
    else some ([], i)

/-- One resumption of the generator (a `.next()` call): from cursor `i`,
run until the next yield (the token and the cursor after it) or until the
loop exits (`none`). The skip over unmatched positions advances one
character at a time, so a single resumption always terminates. -/
def iterator_next (text : Str) (spec : Spec) (i : Nat) : Option (Token × Nat) :=
  if h : i < text.length then
    match find_first_match spec (text.drop i) with
    | some (ty, m) =>
      some (⟨ty, m, (get_line_and_column text i).1, (get_line_and_column text i).2⟩, i + m.length)
    | none => iterator_next text spec (i + 1)
  else none
termination_by text.length - i
decreasing_by simp_wf; omega

/-- `tokenize` from the source: `Array.from` pulls the generator to
exhaustion, one fuel unit per pull. -/
def tokenize (text : Str) (spec : Spec) : Nat → Nat → Option (List Token)
  | 0, _ => none
  | fuel + 1, i =>
    match iterator_next text spec i with
    | none => some []
    | some (t, j) => Option.map (fun l => t :: l) (tokenize text spec fuel j)

/-- A `TokenStream` holds its underlying generator, represented here by the
list of tokens the generator has still to yield. -/
structure TokenStream where
  remaining : List Token
deriving DecidableEq, Repr

/-- The `while` loop of `TokenStream.next`: pull tokens, skipping any whose
type is in the ignored list, until a token is returned or the underlying
sequence is exhausted. -/
def stream_next_list : List Token → List String → Option Token × List Token
  | [], _ => (none, [])
  | t :: rest, ignored =>
    if t.type ∈ ignored then stream_next_list rest ignored else (some t, rest)

/-- `TokenStream.next` from the source. -/
def TokenStream.next (s : TokenStream) (ignored : List String) : Option Token × TokenStream :=
  ((stream_next_list s.remaining ignored).1, ⟨(stream_next_list s.remaining ignored).2⟩)

/-- `TokenStream.close` from the source: `this.iterator.return()` puts the
generator in its done state and, the generator having no return value,
always produces a result whose value is `undefined`. -/
def TokenStream.close (_ : TokenStream) : Option Token × TokenStream :=
  (none, ⟨[]⟩)

/-- JS word character, the character class of `\w`. -/
def is_word_char (c : Char) : Bool :=
  decide ('a' ≤ c ∧ c ≤ 'z') || decide ('A' ≤ c ∧ c ≤ 'Z') ||
    decide ('0' ≤ c ∧ c ≤ '9') || c == '_'

/-- The exec behaviour of the regular expression `\w+`: the earliest
maximal run of word characters, with its start index. -/
def wplus_exec : Str → Option (Nat × Str)
  | [] => none
  | c :: cs =>
    if is_word_char c then some (0, c :: cs.takeWhile is_word_char)
    else
      match wplus_exec cs with
      | some (idx, m) => some (idx + 1, m)
      | none => none

/-- The exec behaviour of the regular expression `/./s`: any single
character, matched at the earliest position, index 0. -/
def dotall_exec : Str → Option (Nat × Str)
  | [] => none
  | c :: _ => some (0, [c])

/-- The input text of the precedence test, `"true"`. -/
def true_text : Str := ['t', 'r', 'u', 'e']

/-- The specification of the precedence test: a literal entry first, a
word-pattern entry second, both matching at position 0 of `"true"`. -/
def bool_word_spec : Spec :=
  [("boolean", TokenMatcher.literal true_text), ("word", TokenMatcher.pattern wplus_exec)]

/-- The multi-line input text `"a\nb"`. -/
def anl_text : Str := ['a', '\n', 'b']

/-- A catch-all specification: one entry matching any single character. -/
def dotall_spec : Spec := [("any", TokenMatcher.pattern dotall_exec)]

/-- A one-character text. -/
def a_text : Str := ['a']

/-- A specification whose only matcher is a function returning a
zero-length match on every input. -/
def zero_spec : Spec := [("z", TokenMatcher.fn (fun _ => some []))]

/-- A specification whose only matcher is a function reporting a match
longer than the remaining text. -/
def over_spec : Spec := [("x", TokenMatcher.fn (fun _ => some ['a', 'b']))]

/-- The witness text for the progress invariant. -/
def wit_text : Str := ['x']

/-- The witness specification for the progress invariant: one literal. -/
def wit_spec : Spec := [("letter", TokenMatcher.literal ['x'])]

/-- `starts_with text pat` holds exactly when `pat` is a prefix of `text`. -/
theorem starts_with_iff (s : Str) : ∀ t : Str, starts_with t s = true ↔ ∃ r, s ++ r = t := by
  induction s with
  | nil =>
    intro t
    simp [starts_with]
  | cons p ps ih =>
    intro t
    cases t with
    | nil =>
      simp [starts_with]
    | cons c cs =>
      simp only [starts_with, Bool.and_eq_true, beq_iff_eq, ih cs, List.cons_append,
        List.cons.injEq]
      constructor
      · rintro ⟨rfl, r, rfl⟩
        exact ⟨r, rfl, rfl⟩
      · rintro ⟨r, rfl, rfl⟩
        exact ⟨rfl, r, rfl⟩

/-- A literal matcher match is the literal itself, and the literal is then a
prefix of the slice. -/
theorem literal_match_eq (lit slice v : Str)
    (h : match_start_of_text slice (TokenMatcher.literal lit) = some v) :
    v = lit ∧ ∃ r, lit ++ r = slice := by
  by_cases hs : starts_with slice lit = true
  · simp only [match_start_of_text, if_pos hs, Option.some.injEq] at h
    exact ⟨h.symm, (starts_with_iff lit slice).mp hs⟩
  · simp [match_start_of_text, hs] at h

/-- C1: the engine accepts a zero-length match (the inner loop reports it,
since the empty string is not null) and then advances the cursor by
`0 - 1 + 1 = 0` positions: the outer loop never progresses, so on the
one-character text with an always-empty function matcher the scan completes
under no fuel bound at all — `token_iterator` does not terminate, there is
no zero-length guard. -/
theorem zero_length_match_diverges :
    find_first_match zero_spec (a_text.drop 0) = some ("z", []) ∧
    ∀ fuel, token_iterator a_text zero_spec fuel 0 = none := by
  refine ⟨rfl, ?_⟩
  intro fuel
  induction fuel with
  | zero => rfl
  | succ n ih =>
    have step : token_iterator a_text zero_spec (n + 1) 0 =
        match token_iterator a_text zero_spec n 0 with
        | some (toks, fin) => some (⟨"z", [], 1, 1⟩ :: toks, fin)
        | none => none := rfl
    rw [step, ih]

/-- C3 counterexample: a function matcher may report a match longer than
the remaining text; on the one-character text the single accepted match
advances the cursor by 2, so the advances sum to 2 while the text length
is 1. -/
theorem advance_sum_counterexample :
    token_iterator a_text over_spec 2 0 = some ([⟨"x", ['a', 'b'], 1, 1⟩], 2) ∧
    a_text.length = 1 ∧ (2 : Nat) ≠ 1 := by
  refine ⟨rfl, rfl, by decide⟩

/-- The loop of `TokenStream.next` returns the first token not filtered
out, leaves the rest of the sequence, and filters the later calls the same
way. -/
theorem stream_next_list_spec (ign : List String) :
    ∀ l : List Token,
      (stream_next_list l ign).1 = (l.filter (fun t => decide (t.type ∉ ign))).head? ∧
      (stream_next_list l ign).2.filter (fun t => decide (t.type ∉ ign)) =
        (l.filter (fun t => decide (t.type ∉ ign))).tail := by
  intro l
  induction l with
  | nil => exact ⟨rfl, rfl⟩
  | cons t rest ih =>
    by_cases ht : t.type ∈ ign
    · simpa [stream_next_list, ht] using ih
    · simp [stream_next_list, ht]

/-- C7: with any ignored-type set, `next` returns the earliest remaining
token whose type is not ignored (none exactly when no such token remains),
consumes the sequence up to and including that token so that later calls
see precisely the later non-ignored tokens in order, and an exhausted
stream keeps answering `none` with nothing left. -/
theorem stream_next_correct (s : TokenStream) (ign : List String) :
    (s.next ign).1 = (s.remaining.filter (fun t => decide (t.type ∉ ign))).head? ∧
    (s.next ign).2.remaining.filter (fun t => decide (t.type ∉ ign)) =
      (s.remaining.filter (fun t => decide (t.type ∉ ign))).tail ∧
    (s.remaining = [] → (s.next ign).1 = none ∧ (s.next ign).2.remaining = []) := by
  obtain ⟨l⟩ := s
  refine ⟨(stream_next_list_spec ign l).1, (stream_next_list_spec ign l).2, ?_⟩
  rintro rfl
  exact ⟨rfl, rfl⟩

/-- C8: `close` puts the underlying generator in its done state (nothing
remains to be yielded) and returns no value: the generator yields no value
on termination, so the result of `iterator.return()` carries `undefined`. -/
theorem stream_close_correct (s : TokenStream) :
    (TokenStream.close s).1 = none ∧ (TokenStream.close s).2.remaining = [] :=
  ⟨rfl, rfl⟩

/-- C9: after `close`, every `next` call, with any ignored-type set,
returns no token and leaves the stream empty: the stream is permanently at
end of stream. -/
theorem next_after_close_none (s : TokenStream) (ign : List String) :
    ((TokenStream.close s).2.next ign).1 = none ∧
    ((TokenStream.close s).2.next ign).2.remaining = [] :=
  ⟨rfl, rfl⟩

/-- C4: the three matcher variants of `match_start_of_text`. A string
matcher matches exactly when it is a prefix of the remaining text and the
result is the literal itself; a regex matcher result is exactly an exec
match at index 0, so an earliest match beginning later in the slice gives
no match; a function matcher's result is used verbatim. -/
theorem match_start_of_text_correct (t s : Str) (e : Str → Option (Nat × Str))
    (f : Str → Option Str) :
    (∀ r, match_start_of_text t (TokenMatcher.literal s) = some r ↔
      ((∃ u, s ++ u = t) ∧ r = s)) ∧
    (∀ r, match_start_of_text t (TokenMatcher.pattern e) = some r ↔ e t = some (0, r)) ∧
    match_start_of_text t (TokenMatcher.fn f) = f t := by
  refine ⟨?_, ?_, rfl⟩
  · intro r
    constructor
    · intro h
      obtain ⟨h1, h2⟩ := literal_match_eq s t r h
      exact ⟨h2, h1⟩
    · rintro ⟨⟨u, rfl⟩, hr⟩
      subst hr
      have hs : starts_with (r ++ u) r = true := (starts_with_iff r (r ++ u)).mpr ⟨u, rfl⟩
      simp [match_start_of_text, hs]
  · intro r
    cases he : e t with
    | none => simp [match_start_of_text, he]
    | some p =>
      obtain ⟨idx, m⟩ := p
      by_cases hi : idx = 0
      · subst hi
        simp [match_start_of_text, he]
      · simp [match_start_of_text, he, hi]

/-- At a position where an entry matches, the first matching entry in
declaration order decides the token: entries before it all fail, entries
after it are never consulted. -/
theorem find_first_match_append (slice v : Str) (ty : String) (m : TokenMatcher) :
    ∀ pre : Spec, (∀ p ∈ pre, match_start_of_text slice p.2 = none) →
      match_start_of_text slice m = some v →
      ∀ post, find_first_match (pre ++ (ty, m) :: post) slice = some (ty, v) := by
  intro pre
  induction pre with
  | nil =>
    intro _ hm post
    simp [find_first_match, hm]
  | cons p rest ih =>
    intro hpre hm post
    obtain ⟨py, pm⟩ := p
    have hp := hpre (py, pm) (by simp)
    have hrest := ih (fun q hq => hpre q (by simp [hq])) hm post
    simp [find_first_match, hp, hrest]

/-- C2: first match wins. Whenever every entry before `(ty, m)` fails on
the slice and `m` matches, the scan takes `(ty, m)`'s token and never
consults the later entries; on input `"true"` with the specification
`{boolean: "true", word: \w+}` the output is exactly the one `boolean`
token, although the `word` pattern would match the same text as well. -/
theorem first_match_wins (pre post : Spec) (ty : String) (m : TokenMatcher)
    (slice v : Str)
    (hpre : ∀ p ∈ pre, match_start_of_text slice p.2 = none)
    (hm : match_start_of_text slice m = some v) :
    find_first_match (pre ++ (ty, m) :: post) slice = some (ty, v) ∧
    token_iterator true_text bool_word_spec 5 0 =
      some ([⟨"boolean", true_text, 1, 1⟩], 4) ∧
    match_start_of_text true_text (TokenMatcher.pattern wplus_exec) = some true_text :=
  ⟨find_first_match_append slice v ty m pre hpre hm post, rfl, rfl⟩

/-- C2 witness: the precedence statement instantiated on the test inputs,
with the `word` pattern as the never-consulted later entry. -/
theorem first_match_wins_witness :
    find_first_match ([] ++ ("boolean", TokenMatcher.literal true_text) ::
        [("word", TokenMatcher.pattern wplus_exec)]) true_text =
      some ("boolean", true_text) ∧
    token_iterator true_text bool_word_spec 5 0 =
      some ([⟨"boolean", true_text, 1, 1⟩], 4) ∧
    match_start_of_text true_text (TokenMatcher.pattern wplus_exec) = some true_text :=
  first_match_wins [] [("word", TokenMatcher.pattern wplus_exec)] "boolean"
    (TokenMatcher.literal true_text) true_text true_text (by simp) rfl

/-- The line and column counters never fall below their start values'
floor: from counters at least 1 the walk keeps both at least 1. -/
theorem glc_ge_one : ∀ (n : Nat) (t : Str) (line col : Nat), 1 ≤ line → 1 ≤ col →
    1 ≤ (glc_go t n line col).1 ∧ 1 ≤ (glc_go t n line col).2 := by
  intro n
  induction n with
  | zero =>
    intro t line col hl hc
    cases t <;> exact ⟨hl, hc⟩
  | succ k ih =>
    intro t line col hl hc
    cases t with
    | nil => simpa [glc_go] using ih [] line (col + 1) hl (by omega)
    | cons c cs =>
      by_cases hcn : c = '\n'
      · simpa [glc_go, hcn] using ih cs (line + 1) 1 (by omega) (by omega)
      · simpa [glc_go, hcn] using ih cs line (col + 1) hl (by omega)

/-- C10: every token the scan yields carries a 1-based position: the
line/column computation starts both counters at 1, never decreases the
line and never drops the column below 1, so line and column of every
yielded token are at least 1. -/
theorem token_positions_positive (text : Str) (spec : Spec) (fuel i : Nat)
    (toks : List Token) (fin : Nat)
    (h : token_iterator text spec fuel i = some (toks, fin)) :
    ∀ t ∈ toks, 1 ≤ t.line ∧ 1 ≤ t.column := by
  induction fuel generalizing i toks fin with
  | zero => exact absurd h (by simp [token_iterator])
  | succ k ih =>
    simp only [token_iterator] at h
    split at h
    · split at h
      · rename_i ty m hf
        split at h
        · rename_i toks0 fin0 hrec
          obtain ⟨rfl, rfl⟩ : (⟨ty, m, (get_line_and_column text i).1,
              (get_line_and_column text i).2⟩ :: toks0 = toks) ∧ fin0 = fin := by
            simpa using h
          intro t ht
          rcases List.mem_cons.mp ht with rfl | hmem
          · exact glc_ge_one i text 1 1 (by omega) (by omega)
          · exact ih _ _ _ hrec t hmem
        · exact absurd h (by simp)
      · exact ih _ _ _ h
    · obtain ⟨rfl, rfl⟩ : ([] : List Token) = toks ∧ i = fin := by simpa using h
      intro t ht
      exact absurd ht (by simp)

/-- C10 witness: the first token of the multi-line catch-all scan has a
positive line and column. -/
theorem token_positions_witness :
    1 ≤ (Token.mk "any" ['a'] 1 1).line ∧ 1 ≤ (Token.mk "any" ['a'] 1 1).column :=
  token_positions_positive anl_text dotall_spec 4 0
    [⟨"any", ['a'], 1, 1⟩, ⟨"any", ['\n'], 1, 2⟩, ⟨"any", ['b'], 2, 1⟩] 3 rfl
    ⟨"any", ['a'], 1, 1⟩ (by simp)

/-- Unfolding: an outer loop iteration that matches advances the cursor by
the match length and emits the token. -/
theorem token_iterator_step_match (text : Str) (spec : Spec) (fuel i : Nat)
    (hi : i < text.length) (ty : String) (m : Str)
    (hm : find_first_match spec (text.drop i) = some (ty, m)) :
    token_iterator text spec (fuel + 1) i =
      match token_iterator text spec fuel (i + m.length) with
      | some (toks, fin) =>
        some (⟨ty, m, (get_line_and_column text i).1,
          (get_line_and_column text i).2⟩ :: toks, fin)
      | none => none := by
  simp only [token_iterator, if_pos hi, hm]

/-- Unfolding: an outer loop iteration with no match advances the cursor by
exactly one character and emits nothing. -/
theorem token_iterator_step_skip (text : Str) (spec : Spec) (fuel i : Nat)
    (hi : i < text.length)
    (hm : find_first_match spec (text.drop i) = none) :
    token_iterator text spec (fuel + 1) i = token_iterator text spec fuel (i + 1) := by
  simp only [token_iterator, if_pos hi, hm]

/-- Unfolding: past the end of the text the loop exits at once. -/
theorem token_iterator_step_done (text : Str) (spec : Spec) (fuel i : Nat)
    (hi : ¬ i < text.length) :
    token_iterator text spec (fuel + 1) i = some ([], i) := by
  simp only [token_iterator, if_neg hi]

/-- The first-match search only returns a match some entry of the
specification reported. -/
theorem find_first_match_mem (spec : Spec) (slice : Str) (ty : String) (v : Str)
    (h : find_first_match spec slice = some (ty, v)) :
    ∃ m, (ty, m) ∈ spec ∧ match_start_of_text slice m = some v := by
  induction spec with
  | nil => exact absurd h (by simp [find_first_match])
  | cons p rest ih =>
    obtain ⟨py, pm⟩ := p
    simp only [find_first_match] at h
    split at h
    · rename_i w hm
      obtain ⟨rfl, rfl⟩ : py = ty ∧ w = v := by simpa using h
      exact ⟨pm, by simp, hm⟩
    · rename_i hm
      obtain ⟨m, hmem, hm2⟩ := ih h
      exact ⟨m, by simp [hmem], hm2⟩

/-- Under the matcher length contract (an accepted match is nonempty and no
longer than the remaining text), every outer loop iteration advances the
cursor by at least one and by at most the remaining length, so the scan
terminates with the cursor exactly at the text length. -/
theorem token_iterator_reaches (text : Str) (spec : Spec)
    (hwf : ∀ p ∈ spec, ∀ slice v, match_start_of_text slice p.2 = some v →
      1 ≤ v.length ∧ v.length ≤ slice.length) :
    ∀ fuel i, i ≤ text.length → text.length - i < fuel →
      ∃ toks, token_iterator text spec fuel i = some (toks, text.length) := by
  intro fuel
  induction fuel with
  | zero =>
    intro i hi hf
    omega
  | succ k ih =>
    intro i hi hf
    by_cases hlt : i < text.length
    · cases hm : find_first_match spec (text.drop i) with
      | some p =>
        obtain ⟨ty, m⟩ := p
        obtain ⟨mm, hmem, hmatch⟩ := find_first_match_mem spec (text.drop i) ty m hm
        have hlen := hwf (ty, mm) hmem (text.drop i) m hmatch
        have hdrop : (text.drop i).length = text.length - i := by simp
        obtain ⟨toks0, hrec⟩ := ih (i + m.length) (by omega) (by omega)
        refine ⟨⟨ty, m, (get_line_and_column text i).1,
          (get_line_and_column text i).2⟩ :: toks0, ?_⟩
        rw [token_iterator_step_match text spec k i hlt ty m hm, hrec]
      | none =>
        obtain ⟨toks0, hrec⟩ := ih (i + 1) (by omega) (by omega)
        exact ⟨toks0, by rw [token_iterator_step_skip text spec k i hlt hm]; exact hrec⟩
    · have hend : i = text.length := by omega
      exact ⟨[], by rw [token_iterator_step_done text spec k i hlt, hend]⟩

/-- C3, amended: for specifications whose matchers honour the length
contract — an accepted match is nonempty and no longer than the remaining
text — the cursor advances of a full scan (the match length per accepted
match, one per unmatched position) sum exactly to the text length: the
scan started at cursor 0 terminates with final cursor `text.length`.
Without the contract the sum can overshoot the length (see the
counterexample) or the scan can fail to terminate (zero-length match). -/
theorem scan_advances_sum_to_length (text : Str) (spec : Spec)
    (hwf : ∀ p ∈ spec, ∀ slice v, match_start_of_text slice p.2 = some v →
      1 ≤ v.length ∧ v.length ≤ slice.length) :
    ∃ toks, token_iterator text spec (text.length + 1) 0 = some (toks, text.length) :=
  token_iterator_reaches text spec hwf (text.length + 1) 0 (by omega) (by omega)

/-- C3 witness: the progress invariant on a one-letter literal
specification over a one-character text. -/
theorem scan_advances_witness :
    ∃ toks, token_iterator wit_text wit_spec (wit_text.length + 1) 0 =
      some (toks, wit_text.length) :=
  scan_advances_sum_to_length wit_text wit_spec (by
    intro p hp slice v hv
    simp only [wit_spec, List.mem_singleton] at hp
    subst hp
    obtain ⟨rfl, r, rfl⟩ := literal_match_eq ['x'] slice v hv
    simp)

/-- Unfolding: a resumption at a matching position yields that token and
the advanced cursor. -/
theorem iterator_next_match (text : Str) (spec : Spec) (i : Nat)
    (hi : i < text.length) (ty : String) (m : Str)
    (hm : find_first_match spec (text.drop i) = some (ty, m)) :
    iterator_next text spec i =
      some (⟨ty, m, (get_line_and_column text i).1,
        (get_line_and_column text i).2⟩, i + m.length) := by
  rw [iterator_next]
  simp only [dif_pos hi, hm]

/-- Unfolding: a resumption skips an unmatched position. -/
theorem iterator_next_skip (text : Str) (spec : Spec) (i : Nat)
    (hi : i < text.length)
    (hm : find_first_match spec (text.drop i) = none) :
    iterator_next text spec i = iterator_next text spec (i + 1) := by
  rw [iterator_next]
  simp only [dif_pos hi, hm]

/-- Unfolding: a resumption past the end of the text reports done. -/
theorem iterator_next_done (text : Str) (spec : Spec) (i : Nat)
    (hi : ¬ i < text.length) :
    iterator_next text spec i = none := by
  rw [iterator_next]
  simp only [dif_neg hi]

/-- Unfolding: one pull of the eager drain. -/
theorem tokenize_step (text : Str) (spec : Spec) (fuel i : Nat) :
    tokenize text spec (fuel + 1) i =
      match iterator_next text spec i with
      | none => some []
      | some (t, j) => Option.map (fun l => t :: l) (tokenize text spec fuel j) := rfl

/-- A resumption that reports done corresponds to a loop run that exits
without yielding. -/
theorem iterator_next_none_drains (text : Str) (spec : Spec) :
    ∀ k i, text.length - i ≤ k → iterator_next text spec i = none →
      ∃ fuel fin, token_iterator text spec fuel i = some ([], fin) := by
  intro k
  induction k with
  | zero =>
    intro i hk _
    exact ⟨1, i, token_iterator_step_done text spec 0 i (by omega)⟩
  | succ n ih =>
    intro i hk h
    by_cases hi : i < text.length
    · cases hm : find_first_match spec (text.drop i) with
      | some p =>
        obtain ⟨ty, m⟩ := p
        rw [iterator_next_match text spec i hi ty m hm] at h
        exact absurd h (by simp)
      | none =>
        have h2 : iterator_next text spec (i + 1) = none := by
          rw [← iterator_next_skip text spec i hi hm]
          exact h
        obtain ⟨fuel, fin, hrec⟩ := ih (i + 1) (by omega) h2
        exact ⟨fuel + 1, fin, by
          rw [token_iterator_step_skip text spec fuel i hi hm]
          exact hrec⟩
    · exact ⟨1, i, token_iterator_step_done text spec 0 i hi⟩

/-- A resumption that yields a token prepends it to whatever loop run
continues from the advanced cursor. -/
theorem iterator_next_some_prepends (text : Str) (spec : Spec) :
    ∀ k i t j, text.length - i ≤ k → iterator_next text spec i = some (t, j) →
      ∀ fuel toks fin, token_iterator text spec fuel j = some (toks, fin) →
        ∃ fuel2, token_iterator text spec fuel2 i = some (t :: toks, fin) := by
  intro k
  induction k with
  | zero =>
    intro i t j hk h
    rw [iterator_next_done text spec i (by omega)] at h
    exact absurd h (by simp)
  | succ n ih =>
    intro i t j hk h fuel toks fin hrec
    by_cases hi : i < text.length
    · cases hm : find_first_match spec (text.drop i) with
      | some p =>
        obtain ⟨ty, m⟩ := p
        rw [iterator_next_match text spec i hi ty m hm] at h
        obtain ⟨rfl, rfl⟩ : (⟨ty, m, (get_line_and_column text i).1,
            (get_line_and_column text i).2⟩ = t) ∧ i + m.length = j := by simpa using h
        exact ⟨fuel + 1, by
          rw [token_iterator_step_match text spec fuel i hi ty m hm, hrec]⟩
      | none =>
        have h2 : iterator_next text spec (i + 1) = some (t, j) := by
          rw [← iterator_next_skip text spec i hi hm]
          exact h
        obtain ⟨fuel2, hrec2⟩ := ih (i + 1) t j (by omega) h2 fuel toks fin hrec
        exact ⟨fuel2 + 1, by
          rw [token_iterator_step_skip text spec fuel2 i hi hm]
          exact hrec2⟩
    · rw [iterator_next_done text spec i hi] at h
      exact absurd h (by simp)

/-- Forward half of C6: any terminating run of the generator loop is
reproduced, token for token and in order, by the eager drain. -/
theorem token_iterator_to_tokenize (text : Str) (spec : Spec) :
    ∀ fuel i toks fin, token_iterator text spec fuel i = some (toks, fin) →
      tokenize text spec (toks.length + 1) i = some toks := by
  intro fuel
  induction fuel with
  | zero =>
    intro i toks fin h
    exact absurd h (by simp [token_iterator])
  | succ k ih =>
    intro i toks fin h
    by_cases hi : i < text.length
    · cases hm : find_first_match spec (text.drop i) with
      | some p =>
        obtain ⟨ty, m⟩ := p
        rw [token_iterator_step_match text spec k i hi ty m hm] at h
        cases hrec : token_iterator text spec k (i + m.length) with
        | none =>
          rw [hrec] at h
          exact absurd h (by simp)
        | some r =>
          obtain ⟨toks0, fin0⟩ := r
          simp only [hrec] at h
          obtain ⟨rfl, rfl⟩ : (⟨ty, m, (get_line_and_column text i).1,
              (get_line_and_column text i).2⟩ :: toks0 = toks) ∧ fin0 = fin := by
            simpa using h
          have hdrain := ih (i + m.length) toks0 fin0 hrec
          have hnext := iterator_next_match text spec i hi ty m hm
          simp only [List.length_cons]
          rw [tokenize_step]
          simp only [hnext]
          rw [hdrain]
          rfl
      | none =>
        rw [token_iterator_step_skip text spec k i hi hm] at h
        have ht := ih (i + 1) toks fin h
        calc tokenize text spec (toks.length + 1) i
            = tokenize text spec (toks.length + 1) (i + 1) := by
              rw [tokenize_step, tokenize_step, iterator_next_skip text spec i hi hm]
          _ = some toks := ht
    · rw [token_iterator_step_done text spec k i hi] at h
      obtain ⟨rfl, rfl⟩ : ([] : List Token) = toks ∧ i = fin := by simpa using h
      rw [tokenize_step, iterator_next_done text spec i hi]

/-- Backward half of C6: whatever the eager drain produces is a
terminating run of the generator loop with the same tokens in order. -/
theorem tokenize_to_token_iterator (text : Str) (spec : Spec) :
    ∀ fuel i l, tokenize text spec fuel i = some l →
      ∃ fuel2 fin, token_iterator text spec fuel2 i = some (l, fin) := by
  intro fuel
  induction fuel with
  | zero =>
    intro i l h
    exact absurd h (by simp [tokenize])
  | succ k ih =>
    intro i l h
    rw [tokenize_step] at h
    cases hn : iterator_next text spec i with
    | none =>
      simp only [hn] at h
      obtain rfl : ([] : List Token) = l := by simpa using h
      obtain ⟨fuel2, fin, hfin⟩ :=
        iterator_next_none_drains text spec (text.length - i) i (by omega) hn
      exact ⟨fuel2, fin, hfin⟩
    | some p =>
      obtain ⟨t, j⟩ := p
      simp only [hn] at h
      cases hd : tokenize text spec k j with
      | none =>
        rw [hd] at h
        exact absurd h (by simp)
      | some l0 =>
        simp only [hd, Option.map_some'] at h
        obtain rfl : t :: l0 = l := by simpa using h
        obtain ⟨fuel2, fin, hit⟩ := ih j l0 hd
        obtain ⟨fuel3, hit3⟩ := iterator_next_some_prepends text spec
          (text.length - i) i t j (by omega) hn fuel2 l0 fin hit
        exact ⟨fuel3, fin, hit3⟩

/-- C6: `tokenize` is exactly the eager drain of the generator: every
terminating generator run is reproduced by `tokenize` with the same tokens
in the same order, and everything `tokenize` returns is such a generator
run. -/
theorem tokenize_eq_iterator_drain (text : Str) (spec : Spec) :
    (∀ fuel toks fin, token_iterator text spec fuel 0 = some (toks, fin) →
      tokenize text spec (toks.length + 1) 0 = some toks) ∧
    (∀ fuel l, tokenize text spec fuel 0 = some l →
      ∃ fuel2 fin, token_iterator text spec fuel2 0 = some (l, fin)) :=
  ⟨fun fuel toks fin h => token_iterator_to_tokenize text spec fuel 0 toks fin h,
    fun fuel l h => tokenize_to_token_iterator text spec fuel 0 l h⟩

/-- takeWhile passes over a block of elements that all satisfy the
predicate. -/
theorem takeWhile_append_of_all (p : Char → Bool) :
    ∀ xs ys : Str, (∀ x ∈ xs, p x = true) →
      (xs ++ ys).takeWhile p = xs ++ ys.takeWhile p := by
  intro xs
  induction xs with
  | nil =>
    intro ys _
    rfl
  | cons a rest ih =>
    intro ys hall
    have ha : p a = true := hall a (by simp)
    simp [List.takeWhile_cons, ha, ih ys (fun x hx => hall x (by simp [hx]))]

/-- takeWhile stops inside a block containing a failing element, so what
follows the block is irrelevant. -/
theorem takeWhile_append_of_fail (p : Char → Bool) :
    ∀ xs ys : Str, (∃ x ∈ xs, p x = false) →
      (xs ++ ys).takeWhile p = xs.takeWhile p := by
  intro xs
  induction xs with
  | nil =>
    rintro ys ⟨x, hx, _⟩
    exact absurd hx (by simp)
  | cons a rest ih =>
    intro ys hex
    by_cases ha : p a = true
    · obtain ⟨x, hx, hpx⟩ := hex
      have hxrest : x ∈ rest := by
        rcases List.mem_cons.mp hx with rfl | h2
        · rw [ha] at hpx
          exact absurd hpx (by simp)
        · exact h2
      simp [List.takeWhile_cons, ha, ih ys ⟨x, hxrest, hpx⟩]
    · have ha2 : p a = false := by simpa using ha
      simp [List.takeWhile_cons, ha2]

/-- takeWhile keeps a list all of whose elements satisfy the predicate. -/
theorem takeWhile_eq_self_of_all (p : Char → Bool) :
    ∀ xs : Str, (∀ x ∈ xs, p x = true) → xs.takeWhile p = xs := by
  intro xs
  induction xs with
  | nil =>
    intro _
    rfl
  | cons a rest ih =>
    intro hall
    simp [List.takeWhile_cons, hall a (by simp),
      ih (fun x hx => hall x (by simp [hx]))]

/-- Appending one failing element does not change a takeWhile. -/
theorem takeWhile_append_single_fail (p : Char → Bool) (xs : Str) (a : Char)
    (ha : p a = false) :
    (xs ++ [a]).takeWhile p = xs.takeWhile p := by
  by_cases hall : ∀ x ∈ xs, p x = true
  · rw [takeWhile_append_of_all p xs [a] hall]
    simp [List.takeWhile_cons, ha, takeWhile_eq_self_of_all p xs hall]
  · have hex : ∃ x ∈ xs, p x = false := by
      push_neg at hall
      obtain ⟨x, hx, hpx⟩ := hall
      exact ⟨x, hx, by simpa using hpx⟩
    exact takeWhile_append_of_fail p xs [a] hex

/-- Appending one passing element to an all-passing list keeps everything. -/
theorem takeWhile_append_single_pass (p : Char → Bool) (xs : Str) (a : Char)
    (ha : p a = true) (hall : ∀ x ∈ xs, p x = true) :
    (xs ++ [a]).takeWhile p = xs ++ [a] := by
  rw [takeWhile_append_of_all p xs [a] hall]
  simp [List.takeWhile_cons, ha]

/-- The line component of the walk adds the number of newlines among the
first `n` characters to the incoming line counter. -/
theorem glc_line (text : Str) : ∀ n line col, n ≤ text.length →
    (glc_go text n line col).1 = line + (text.take n).count '\n' := by
  induction text with
  | nil =>
    intro n line col hn
    have hz : n = 0 := by simpa using hn
    subst hz
    simp [glc_go]
  | cons c cs ih =>
    intro n line col hn
    cases n with
    | zero => simp [glc_go]
    | succ k =>
      have hk : k ≤ cs.length := by simpa using hn
      by_cases hc : c = '\n'
      · subst hc
        have hl := ih k (line + 1) 1 hk
        simp only [glc_go, if_pos rfl, List.take_succ_cons, hl]
        simp [List.count_cons]
        omega
      · have hl := ih k line (col + 1) hk
        simp only [glc_go, if_neg hc, List.take_succ_cons, hl]
        simp [List.count_cons, hc]

/-- The column component of the walk: once a newline is among the first
`n` characters the incoming column counter is forgotten and the column is
1 plus the number of characters after the last such newline; with no
newline it is the incoming counter plus `n`. -/
theorem glc_col (text : Str) : ∀ n line col, n ≤ text.length →
    (glc_go text n line col).2 =
      (if '\n' ∈ text.take n then 1 else col) +
        ((text.take n).reverse.takeWhile (fun x => x != '\n')).length := by
  induction text with
  | nil =>
    intro n line col hn
    have hz : n = 0 := by simpa using hn
    subst hz
    simp [glc_go]
  | cons c cs ih =>
    intro n line col hn
    cases n with
    | zero => simp [glc_go]
    | succ k =>
      have hk : k ≤ cs.length := by simpa using hn
      by_cases hc : c = '\n'
      · subst hc
        have hl := ih k (line + 1) 1 hk
        simp only [glc_go, if_pos rfl, List.take_succ_cons, List.reverse_cons, hl]
        rw [takeWhile_append_single_fail (fun x => x != '\n') (cs.take k).reverse '\n'
          (by simp)]
        simp
        rw [hl, ite_self]
      · have hl := ih k line (col + 1) hk
        simp only [glc_go, if_neg hc, List.take_succ_cons, List.reverse_cons, hl]
        by_cases hmem : '\n' ∈ cs.take k
        · rw [takeWhile_append_of_fail (fun x => x != '\n') (cs.take k).reverse [c]
            ⟨'\n', by simp [hmem], by simp⟩]
          simp [hmem]
        · have hall : ∀ x ∈ (cs.take k).reverse, (fun x => x != '\n') x = true := by
            intro x hx
            have hxm : x ∈ cs.take k := by simpa using hx
            have hxne : x ≠ '\n' := fun he => hmem (he ▸ hxm)
            simp [hxne]
          rw [takeWhile_append_single_pass (fun x => x != '\n') (cs.take k).reverse c
            (by simp [hc]) hall,
            takeWhile_eq_self_of_all (fun x => x != '\n') (cs.take k).reverse hall]
          have hc2 : ¬ ('\n' = c) := fun he => hc he.symm
          simp only [List.mem_cons, List.length_append, List.length_reverse,
            List.length_cons, List.length_nil]
          rw [if_neg hmem, if_neg (by simp [hc2, hmem])]
          omega

/-- C5: for any offset up to the text length, `get_line_and_column`
returns the 1-based pair whose line is 1 plus the number of newlines
strictly before the offset and whose column is 1 plus the number of
characters after the most recent such newline (all of them non-newline);
scanning `"a\nb"` with the catch-all `/./s` matcher places its three
tokens at (1,1), (1,2) and (2,1). -/
theorem get_line_and_column_correct (text : Str) (i : Nat) (h : i ≤ text.length) :
    (get_line_and_column text i).1 = 1 + (text.take i).count '\n' ∧
    (get_line_and_column text i).2 =
      1 + ((text.take i).reverse.takeWhile (fun x => x != '\n')).length ∧
    token_iterator anl_text dotall_spec 4 0 =
      some ([⟨"any", ['a'], 1, 1⟩, ⟨"any", ['\n'], 1, 2⟩, ⟨"any", ['b'], 2, 1⟩], 3) := by
  refine ⟨glc_line text i 1 1 h, ?_, rfl⟩
  have hc := glc_col text i 1 1 h
  rw [ite_self] at hc
  exact hc

/-- C5 witness: the characterization applied at offset 2 of `"a\nb"`, the
position of the token `"b"` on line 2, column 1. -/
theorem get_line_and_column_witness :
    (get_line_and_column anl_text 2).1 = 1 + (anl_text.take 2).count '\n' ∧
    (get_line_and_column anl_text 2).2 =
      1 + ((anl_text.take 2).reverse.takeWhile (fun x => x != '\n')).length ∧
    token_iterator anl_text dotall_spec 4 0 =
      some ([⟨"any", ['a'], 1, 1⟩, ⟨"any", ['\n'], 1, 2⟩, ⟨"any", ['b'], 2, 1⟩], 3) :=
  get_line_and_column_correct anl_text 2 (by decide)
